import Mathlib

/-!
Verification of the GAMBIT signature / Jaccard-metric / classification core.

The sampled sources contain the test suite, the CLI `query` command and the
results-exporter base; the metric, k-mer search, signature-array and query
modules themselves are absent.  Definitions for those parts are therefore
modelled from the specification (each such definition's doc comment starts
with "Modelled from the spec:").  The CLI `query` command is embedded
directly from `src/gambit/cli/query.py`.
-/

namespace Gambit

/-- Modelled from the spec: sparse-signature intersection size via a linear
two-pointer merge over ascending unique index lists (the Cython core of
`gambit.metric`, absent from the sampled sources).  O(|S1|+|S2|). -/
def intersectCount : List ℕ → List ℕ → ℕ
  | [], _ => 0
  | _ :: _, [] => 0
  | a :: as, b :: bs =>
    if a < b then intersectCount as (b :: bs)
    else if b < a then intersectCount (a :: as) bs
    else intersectCount as bs + 1
termination_by s1 s2 => s1.length + s2.length

/-- Modelled from the spec: the Jaccard similarity score of two sparse
signatures: `score = intersection/union`, union = |S1|+|S2|−intersection,
defined as 1 when both sets are empty (`gambit.metric.jaccard`). -/
def jaccard (s1 s2 : List ℕ) : ℚ :=
  let i := intersectCount s1 s2
  let u := s1.length + s2.length - i
  if u = 0 then 1 else (i : ℚ) / (u : ℚ)

/-- Modelled from the spec: the Jaccard distance, `distance = 1 − score`,
computed via the score path (`gambit.metric.jaccarddist`). -/
def jaccarddist (s1 s2 : List ℕ) : ℚ :=
  1 - jaccard s1 s2

theorem intersectCount_le_left : ∀ s1 s2 : List ℕ, intersectCount s1 s2 ≤ s1.length
  | [], s2 => by simp [intersectCount]
  | a :: as, [] => by simp [intersectCount]
  | a :: as, b :: bs => by
    unfold intersectCount
    split
    · exact le_trans (intersectCount_le_left as (b :: bs)) (by simp)
    · split
      · exact intersectCount_le_left (a :: as) bs
      · simpa using intersectCount_le_left as bs
termination_by s1 s2 => s1.length + s2.length

theorem intersectCount_le_right : ∀ s1 s2 : List ℕ, intersectCount s1 s2 ≤ s2.length
  | [], s2 => by simp [intersectCount]
  | a :: as, [] => by simp [intersectCount]
  | a :: as, b :: bs => by
    unfold intersectCount
    split
    · exact intersectCount_le_right as (b :: bs)
    · split
      · exact le_trans (intersectCount_le_right (a :: as) bs) (by simp)
      · simpa using intersectCount_le_right as bs
termination_by s1 s2 => s1.length + s2.length

/-- C1: for every pair of sparse signatures the Jaccard score lies in
`[0, 1]`, and score and distance are exactly complementary:
`jaccard s1 s2 = 1 - jaccarddist s1 s2` holds exactly, the score being 1
when both sets are empty and the distance being computed via the score
path. -/
theorem jaccard_range_and_complement (s1 s2 : List ℕ) :
    0 ≤ jaccard s1 s2 ∧ jaccard s1 s2 ≤ 1 ∧
      jaccard s1 s2 = 1 - jaccarddist s1 s2 := by
  have h1 := intersectCount_le_left s1 s2
  have h2 := intersectCount_le_right s1 s2
  refine ⟨?_, ?_, by simp [jaccarddist]⟩ <;> simp only [jaccard]
  · split
    · norm_num
    · positivity
  · split
    · exact le_refl 1
    · rename_i hu
      rw [div_le_one]
      · have : intersectCount s1 s2 ≤ s1.length + s2.length - intersectCount s1 s2 := by
          omega
        exact_mod_cast this
      · have : 0 < s1.length + s2.length - intersectCount s1 s2 := Nat.pos_of_ne_zero hu
        exact_mod_cast this

/-- Modelled from the spec: the independent unoptimized set-based reference
implementation of the Jaccard score (`gambit.metric.jaccard_generic`),
dividing the intersection by the union directly over set views. -/
def jaccard_generic (s1 s2 : List ℕ) : ℚ :=
  let i := (s1.toFinset ∩ s2.toFinset).card
  let u := (s1.toFinset ∪ s2.toFinset).card
  if u = 0 then 1 else (i : ℚ) / (u : ℚ)

/-- Modelled from the spec: the dense boolean view of a sparse signature,
a bit vector of length `nkmers` with bit `i` set iff index `i` is in the
signature (`gambit.sigs.convert.sparse_to_dense`). -/
def sparse_to_dense (nkmers : ℕ) (s : List ℕ) : List Bool :=
  (List.range nkmers).map (fun i => decide (i ∈ s))

/-- Modelled from the spec: the dense bit-vector Jaccard score, AND/OR plus
population count over boolean vectors (`gambit.metric.jaccard_bits`). -/
def jaccard_bits (v1 v2 : List Bool) : ℚ :=
  let i := ((v1.zip v2).filter (fun p => p.1 && p.2)).length
  let u := ((v1.zip v2).filter (fun p => p.1 || p.2)).length
  if u = 0 then 1 else (i : ℚ) / (u : ℚ)

theorem intersectCount_eq_card_inter : ∀ (s1 s2 : List ℕ),
    List.Sorted (· < ·) s1 → List.Sorted (· < ·) s2 →
    intersectCount s1 s2 = (s1.toFinset ∩ s2.toFinset).card
  | [], s2, _, _ => by simp [intersectCount]
  | a :: as, [], _, _ => by simp [intersectCount]
  | a :: as, b :: bs, h1, h2 => by
    obtain ⟨ha, h1t⟩ := List.sorted_cons.mp h1
    obtain ⟨hb, h2t⟩ := List.sorted_cons.mp h2
    unfold intersectCount
    by_cases hab : a < b
    · have hnotmem : a ∉ insert b bs.toFinset := by
        simp only [Finset.mem_insert, List.mem_toFinset]
        rintro (rfl | hmem)
        · exact lt_irrefl a hab
        · exact lt_irrefl a (lt_trans hab (hb a hmem))
      have ih := intersectCount_eq_card_inter as (b :: bs) h1t h2
      simp only [List.toFinset_cons] at ih ⊢
      rw [if_pos hab, Finset.insert_inter_of_not_mem hnotmem]
      exact ih
    · by_cases hba : b < a
      · have hnotmem : b ∉ insert a as.toFinset := by
          simp only [Finset.mem_insert, List.mem_toFinset]
          rintro (rfl | hmem)
          · exact lt_irrefl b hba
          · exact lt_irrefl b (lt_trans hba (ha b hmem))
        have ih := intersectCount_eq_card_inter (a :: as) bs h1 h2t
        simp only [List.toFinset_cons] at ih ⊢
        rw [if_neg hab, if_pos hba, Finset.inter_insert_of_not_mem hnotmem]
        exact ih
      · have heq : a = b := by omega
        subst heq
        have hnotmem : a ∉ as.toFinset ∩ bs.toFinset := by
          simp only [Finset.mem_inter, List.mem_toFinset]
          rintro ⟨hmem, _⟩
          exact lt_irrefl a (ha a hmem)
        have ih := intersectCount_eq_card_inter as bs h1t h2t
        simp only [List.toFinset_cons] at ih ⊢
        rw [if_neg hab, if_neg hba, ← Finset.insert_inter_distrib,
          Finset.card_insert_of_not_mem hnotmem, ih]
termination_by s1 s2 => s1.length + s2.length

theorem card_union_intersectCount (s1 s2 : List ℕ)
    (h1 : List.Sorted (· < ·) s1) (h2 : List.Sorted (· < ·) s2) :
    (s1.toFinset ∪ s2.toFinset).card + intersectCount s1 s2 =
      s1.length + s2.length := by
  rw [intersectCount_eq_card_inter s1 s2 h1 h2, Finset.card_union_add_card_inter,
    List.toFinset_card_of_nodup h1.nodup, List.toFinset_card_of_nodup h2.nodup]

theorem jaccard_eq_generic (s1 s2 : List ℕ)
    (h1 : List.Sorted (· < ·) s1) (h2 : List.Sorted (· < ·) s2) :
    jaccard s1 s2 = jaccard_generic s1 s2 := by
  have hcard := intersectCount_eq_card_inter s1 s2 h1 h2
  have huni := card_union_intersectCount s1 s2 h1 h2
  have hle1 := intersectCount_le_left s1 s2
  simp only [jaccard, jaccard_generic]
  have hu : s1.length + s2.length - intersectCount s1 s2 =
      (s1.toFinset ∪ s2.toFinset).card := by omega
  rw [hu, hcard]

theorem length_filter_range_eq_card (n : ℕ) (p : ℕ → Bool) (S : Finset ℕ)
    (hp : ∀ i, p i = true ↔ i ∈ S) (hS : ∀ i ∈ S, i < n) :
    ((List.range n).filter p).length = S.card := by
  have hnd : ((List.range n).filter p).Nodup := (List.nodup_range n).filter p
  rw [← List.toFinset_card_of_nodup hnd]
  congr 1
  ext i
  simp only [List.mem_toFinset, List.mem_filter, List.mem_range, hp]
  exact ⟨fun h => h.2, fun h => ⟨hS i h, h⟩⟩

theorem jaccard_bits_eq (nk : ℕ) (s1 s2 : List ℕ)
    (h1 : List.Sorted (· < ·) s1) (h2 : List.Sorted (· < ·) s2)
    (hb1 : ∀ x ∈ s1, x < nk) (hb2 : ∀ x ∈ s2, x < nk) :
    jaccard_bits (sparse_to_dense nk s1) (sparse_to_dense nk s2) =
      jaccard s1 s2 := by
  have hzip : (sparse_to_dense nk s1).zip (sparse_to_dense nk s2) =
      (List.range nk).map (fun i => (decide (i ∈ s1), decide (i ∈ s2))) := by
    simp only [sparse_to_dense]
    exact List.zip_map' _ _ _
  have hinter :
      (((sparse_to_dense nk s1).zip (sparse_to_dense nk s2)).filter
        (fun p => p.1 && p.2)).length = (s1.toFinset ∩ s2.toFinset).card := by
    rw [hzip, List.filter_map, List.length_map]
    refine length_filter_range_eq_card nk _ _ (fun i => ?_) (fun i hi => ?_)
    · simp [Function.comp]
    · rw [Finset.mem_inter] at hi
      exact hb1 i (List.mem_toFinset.mp hi.1)
  have hunion :
      (((sparse_to_dense nk s1).zip (sparse_to_dense nk s2)).filter
        (fun p => p.1 || p.2)).length = (s1.toFinset ∪ s2.toFinset).card := by
    rw [hzip, List.filter_map, List.length_map]
    refine length_filter_range_eq_card nk _ _ (fun i => ?_) (fun i hi => ?_)
    · simp [Function.comp]
    · rcases Finset.mem_union.mp hi with h | h
      · exact hb1 i (List.mem_toFinset.mp h)
      · exact hb2 i (List.mem_toFinset.mp h)
  rw [jaccard_eq_generic s1 s2 h1 h2]
  simp only [jaccard_bits, jaccard_generic]
  rw [hinter, hunion]

/-- C9: for every pair of sparse signatures (with indices below the k-mer
index space size), the dense bit-vector implementation applied to their
dense views and the independent unoptimized set-based reference
implementation both agree with the fast sparse `jaccard` within absolute
tolerance 1e-7 (they agree exactly in the rational model). -/
theorem jaccard_dense_and_generic_within_tolerance (nk : ℕ) (s1 s2 : List ℕ)
    (h1 : List.Sorted (· < ·) s1) (h2 : List.Sorted (· < ·) s2)
    (hb1 : ∀ x ∈ s1, x < nk) (hb2 : ∀ x ∈ s2, x < nk) :
    |jaccard_bits (sparse_to_dense nk s1) (sparse_to_dense nk s2) -
        jaccard s1 s2| ≤ 1 / 10000000 ∧
    |jaccard_generic s1 s2 - jaccard s1 s2| ≤ 1 / 10000000 := by
  rw [jaccard_bits_eq nk s1 s2 h1 h2 hb1 hb2, ← jaccard_eq_generic s1 s2 h1 h2]
  norm_num

/-- Witness for C9 at `nkmers = 4`, `s1 = [0, 2]`, `s2 = [1, 2]`. -/
theorem jaccard_dense_and_generic_within_tolerance_witness :
    (List.Sorted (· < ·) [0, 2] ∧ List.Sorted (· < ·) [1, 2] ∧
      (∀ x ∈ [0, 2], x < 4) ∧ (∀ x ∈ [1, 2], x < 4)) ∧
    (|jaccard_bits (sparse_to_dense 4 [0, 2]) (sparse_to_dense 4 [1, 2]) -
        jaccard [0, 2] [1, 2]| ≤ 1 / 10000000 ∧
      |jaccard_generic [0, 2] [1, 2] - jaccard [0, 2] [1, 2]| ≤ 1 / 10000000) :=
  ⟨⟨by decide, by decide, by decide, by decide⟩,
    jaccard_dense_and_generic_within_tolerance 4 [0, 2] [1, 2]
      (by decide) (by decide) (by decide) (by decide)⟩

/-- Modelled from the spec: storing an index value in an integer type with
capacity `N` (the number of representable non-negative values); values at or
above the capacity wrap, values below it are stored faithfully. -/
def storeVal (N : ℕ) (v : ℕ) : ℕ := v % N

/-- Modelled from the spec: a sparse signature stored at integer width of
capacity `N`: every index value stored at that width. -/
def storeSig (N : ℕ) (s : List ℕ) : List ℕ := s.map (storeVal N)

/-- Modelled from the spec: cross-width pairwise Jaccard distance — each
signature is stored at its own width and both are promoted to the common
(wider) width before comparison. -/
def jaccarddistCross (N1 N2 : ℕ) (s1 s2 : List ℕ) : ℚ :=
  jaccarddist (storeSig (max N1 N2) (storeSig N1 s1))
    (storeSig (max N1 N2) (storeSig N2 s2))

/-- Modelled from the spec: one-query-to-many distances at the level of a
plain list of reference signatures. -/
def jaccarddistArrayL (q : List ℕ) (refs : List (List ℕ)) : List ℚ :=
  refs.map (fun r => jaccarddist q r)

/-- Modelled from the spec: the all-pairs distance matrix at the level of
plain lists of signatures. -/
def jaccarddistMatrixL (qs refs : List (List ℕ)) : List (List ℚ) :=
  qs.map (fun q => jaccarddistArrayL q refs)

/-- Modelled from the spec: `jaccarddist_array` where the query is stored at
width `N1` and every reference at width `N2`, promoting each pair. -/
def jaccarddistArrayCross (N1 N2 : ℕ) (q : List ℕ) (refs : List (List ℕ)) : List ℚ :=
  refs.map (fun r => jaccarddistCross N1 N2 q r)

/-- Modelled from the spec: `jaccarddist_matrix` where queries are stored at
width `N1` and references at width `N2`, promoting each pair. -/
def jaccarddistMatrixCross (N1 N2 : ℕ) (qs refs : List (List ℕ)) : List (List ℚ) :=
  qs.map (fun q => jaccarddistArrayCross N1 N2 q refs)

theorem storeSig_promote_id (N1 N : ℕ) (s : List ℕ)
    (h : ∀ v ∈ s, v < N1) (hN : N1 ≤ N) :
    storeSig N (storeSig N1 s) = s := by
  induction s with
  | nil => rfl
  | cons a as ih =>
    have ha := h a (by simp)
    have has : ∀ v ∈ as, v < N1 := fun v hv => h v (by simp [hv])
    simp only [storeSig, storeVal, List.map_cons, List.map_map] at ih ⊢
    rw [Nat.mod_eq_of_lt ha, Nat.mod_eq_of_lt (lt_of_lt_of_le ha hN)]
    simpa using ih has

/-- C3: for every pair of signatures whose index values are representable in
both of two integer storage widths, the Jaccard distance computed between a
signature stored at one width and one stored at the other — pairwise, via
the one-to-many form and via the matrix form — equals exactly the distance
computed with both signatures in a common wide width: comparison promotes
to the common width and never overflows or truncates. -/
theorem cross_width_distances_exact (N1 N2 : ℕ) (s1 s2 q : List ℕ)
    (qs refs : List (List ℕ))
    (hs1 : ∀ v ∈ s1, v < N1 ∧ v < N2) (hs2 : ∀ v ∈ s2, v < N1 ∧ v < N2)
    (hq : ∀ v ∈ q, v < N1 ∧ v < N2)
    (hrefs : ∀ r ∈ refs, ∀ v ∈ r, v < N1 ∧ v < N2)
    (hqs : ∀ r ∈ qs, ∀ v ∈ r, v < N1 ∧ v < N2) :
    jaccarddistCross N1 N2 s1 s2 = jaccarddist s1 s2 ∧
    jaccarddistArrayCross N1 N2 q refs = jaccarddistArrayL q refs ∧
    jaccarddistMatrixCross N1 N2 qs refs = jaccarddistMatrixL qs refs := by
  have hpair : ∀ a b : List ℕ, (∀ v ∈ a, v < N1 ∧ v < N2) →
      (∀ v ∈ b, v < N1 ∧ v < N2) →
      jaccarddistCross N1 N2 a b = jaccarddist a b := by
    intro a b hha hhb
    unfold jaccarddistCross
    rw [storeSig_promote_id N1 (max N1 N2) a (fun v hv => (hha v hv).1) (le_max_left _ _),
      storeSig_promote_id N2 (max N1 N2) b (fun v hv => (hhb v hv).2) (le_max_right _ _)]
  have harr : ∀ a : List ℕ, (∀ v ∈ a, v < N1 ∧ v < N2) →
      jaccarddistArrayCross N1 N2 a refs = jaccarddistArrayL a refs := by
    intro a hha
    exact List.map_congr_left (fun r hr => hpair a r hha (hrefs r hr))
  refine ⟨hpair s1 s2 hs1 hs2, harr q hq, ?_⟩
  exact List.map_congr_left (fun r hr => harr r (hqs r hr))

/-- Witness for C3 at widths 4 and 8 and small concrete signatures. -/
theorem cross_width_distances_exact_witness :
    ((∀ v ∈ [1, 3], v < 4 ∧ v < 8) ∧ (∀ v ∈ [2, 3], v < 4 ∧ v < 8) ∧
      (∀ v ∈ [0, 2], v < 4 ∧ v < 8) ∧
      (∀ r ∈ [[1, 3], [2]], ∀ v ∈ r, v < 4 ∧ v < 8) ∧
      (∀ r ∈ [[0, 2]], ∀ v ∈ r, v < 4 ∧ v < 8)) ∧
    (jaccarddistCross 4 8 [1, 3] [2, 3] = jaccarddist [1, 3] [2, 3] ∧
      jaccarddistArrayCross 4 8 [0, 2] [[1, 3], [2]] =
        jaccarddistArrayL [0, 2] [[1, 3], [2]] ∧
      jaccarddistMatrixCross 4 8 [[0, 2]] [[1, 3], [2]] =
        jaccarddistMatrixL [[0, 2]] [[1, 3], [2]]) :=
  ⟨⟨by decide, by decide, by decide, by decide, by decide⟩,
    cross_width_distances_exact 4 8 [1, 3] [2, 3] [0, 2] [[0, 2]] [[1, 3], [2]]
      (by decide) (by decide) (by decide) (by decide) (by decide)⟩

/-- Modelled from the spec: compact immutable storage for many signatures —
one concatenated `values` buffer plus a `bounds` array of length N+1 such
that signature `i` occupies `values[bounds[i]:bounds[i+1]]`
(`gambit.sigs.SignatureArray`). -/
structure SignatureArray where
  values : List ℕ
  bounds : List ℕ

/-- Number of signatures stored in the array. -/
def SignatureArray.count (A : SignatureArray) : ℕ := A.bounds.length - 1

/-- The `i`-th stored signature: the slice `values[bounds[i]:bounds[i+1]]`. -/
def SignatureArray.get (A : SignatureArray) (i : ℕ) : List ℕ :=
  (A.values.take (A.bounds.getD (i + 1) 0)).drop (A.bounds.getD i 0)

/-- Modelled from the spec: the capacity of the canonical offset integer type
for the bounds buffer (`gambit.metric.BOUNDS_DTYPE`, a 64-bit offset type). -/
def boundsCap : ℕ := 2 ^ 63

/-- Modelled from the spec: `SignatureArray.from_arrays` — builds directly
from a pre-populated buffer pair, accepting a bounds array stored at a
non-canonical width `N` and normalizing it to the canonical offset width. -/
def SignatureArray.from_arrays (values : List ℕ) (bounds : List ℕ)
    (N : ℕ) : SignatureArray :=
  ⟨values, bounds.map (fun b => storeVal boundsCap (storeVal N b))⟩

/-- Modelled from the spec: `jaccarddist_array` / `distanceToAll` — the
vector of distances from one query signature to every signature in a
`SignatureArray`. -/
def jaccarddist_array (q : List ℕ) (refs : SignatureArray) : List ℚ :=
  (List.range refs.count).map (fun i => jaccarddist q (refs.get i))

theorem getD_map_range (f : ℕ → ℚ) (n i : ℕ) (hi : i < n) :
    ((List.range n).map f).getD i 0 = f i := by
  rw [List.getD_eq_getElem?_getD, List.getElem?_map, List.getElem?_range hi]
  rfl

/-- C5: for every query signature and reference `SignatureArray` — also one
built through `from_arrays` with a bounds buffer at a non-canonical integer
width, which is normalized rather than rejected — `jaccarddist_array`
returns a vector of length `len(refs)` whose `i`-th entry equals
`jaccarddist q refs[i]` for every index `i`. -/
theorem jaccarddist_array_entries (q values bounds : List ℕ) (N : ℕ)
    (hb : ∀ b ∈ bounds, b < N ∧ b < boundsCap) :
    (SignatureArray.from_arrays values bounds N).bounds = bounds ∧
    (jaccarddist_array q (SignatureArray.from_arrays values bounds N)).length =
      (SignatureArray.from_arrays values bounds N).count ∧
    ∀ i < (SignatureArray.from_arrays values bounds N).count,
      (jaccarddist_array q (SignatureArray.from_arrays values bounds N)).getD i 0 =
        jaccarddist q ((SignatureArray.from_arrays values bounds N).get i) := by
  have hnorm : (SignatureArray.from_arrays values bounds N).bounds = bounds := by
    simp only [SignatureArray.from_arrays]
    refine List.map_congr_left (fun b hbmem => ?_) |>.trans (List.map_id bounds)
    have := hb b hbmem
    simp [storeVal, Nat.mod_eq_of_lt this.1, Nat.mod_eq_of_lt this.2]
  refine ⟨hnorm, by simp [jaccarddist_array], fun i hi => ?_⟩
  exact getD_map_range _ _ i hi

/-- Witness for C5 on a concrete buffer pair with `i4`-width bounds. -/
theorem jaccarddist_array_entries_witness :
    (∀ b ∈ [0, 2, 3], b < 2 ^ 31 ∧ b < boundsCap) ∧
    ((SignatureArray.from_arrays [5, 7, 7] [0, 2, 3] (2 ^ 31)).bounds = [0, 2, 3] ∧
      (jaccarddist_array [5] (SignatureArray.from_arrays [5, 7, 7] [0, 2, 3] (2 ^ 31))).length =
        (SignatureArray.from_arrays [5, 7, 7] [0, 2, 3] (2 ^ 31)).count ∧
      ∀ i < (SignatureArray.from_arrays [5, 7, 7] [0, 2, 3] (2 ^ 31)).count,
        (jaccarddist_array [5] (SignatureArray.from_arrays [5, 7, 7] [0, 2, 3] (2 ^ 31))).getD i 0 =
          jaccarddist [5] ((SignatureArray.from_arrays [5, 7, 7] [0, 2, 3] (2 ^ 31)).get i)) :=
  ⟨by decide,
    jaccarddist_array_entries [5] [5, 7, 7] [0, 2, 3] (2 ^ 31) (by decide)⟩

/-- Modelled from the spec: partition a list of reference-column indices into
consecutive fixed-size blocks (the final block may be shorter); block size
at least 1. -/
def chunkList (c : ℕ) : List α → List (List α)
  | [] => []
  | a :: l => (a :: l).take (max c 1) :: chunkList c ((a :: l).drop (max c 1))
termination_by l => l.length
decreasing_by simp

/-- Modelled from the spec: `jaccarddist_matrix` / `distanceMatrix` —
`ref_indices`, when given, selects and orders the reference columns;
`chunksize` partitions the selected columns into fixed-size blocks, each
computed independently and written to its own output region (modelled by
concatenating the per-block results). -/
def jaccarddist_matrix (queries : List (List ℕ)) (refs : SignatureArray)
    (refIndices : Option (List ℕ)) (chunksize : Option ℕ) : List (List ℚ) :=
  let cols := match refIndices with
    | some I => I
    | none => List.range refs.count
  let c := match chunksize with
    | some c => c
    | none => cols.length
  queries.map (fun q =>
    ((chunkList c cols).map
      (fun blk => blk.map (fun j => jaccarddist q (refs.get j)))).flatten)

theorem flatten_chunkList (c : ℕ) : ∀ l : List α, (chunkList c l).flatten = l
  | [] => by simp only [chunkList, List.flatten_nil]
  | a :: l => by
    simp only [chunkList, List.flatten_cons]
    rw [flatten_chunkList c ((a :: l).drop (max c 1))]
    exact List.take_append_drop _ _
termination_by l => l.length
decreasing_by simp

theorem flatten_map_chunkList (c : ℕ) (g : α → β) (l : List α) :
    ((chunkList c l).map (fun blk => blk.map g)).flatten = l.map g := by
  rw [← List.map_flatten, flatten_chunkList]

/-- Column restriction/reordering of a matrix: row-wise selection of the
entries at positions `I`, in the order of `I`. -/
def selectCols (M : List (List ℚ)) (I : List ℕ) : List (List ℚ) :=
  M.map (fun row => I.map (fun j => row.getD j 0))

/-- C4: for every query set, reference `SignatureArray`, column-index
selection `I` (any subset of reference positions in any order) and any
chunksize, `jaccarddist_matrix queries refs (some I) c` equals the full
matrix restricted and reordered to columns `I`; and the result with no
selection is independent of the chunksize used to partition the columns. -/
theorem jaccarddist_matrix_refIndices_chunksize (queries : List (List ℕ))
    (refs : SignatureArray) (I : List ℕ) (c1 c2 : Option ℕ)
    (hI : ∀ j ∈ I, j < refs.count) :
    jaccarddist_matrix queries refs (some I) c1 =
      selectCols (jaccarddist_matrix queries refs none none) I ∧
    jaccarddist_matrix queries refs none c2 =
      jaccarddist_matrix queries refs none none := by
  constructor
  · simp only [jaccarddist_matrix, selectCols, List.map_map]
    refine List.map_congr_left (fun q _ => ?_)
    simp only [Function.comp, flatten_map_chunkList]
    refine List.map_congr_left (fun j hj => ?_)
    rw [getD_map_range _ _ j (hI j hj)]
  · simp only [jaccarddist_matrix]
    refine List.map_congr_left (fun q _ => ?_)
    rw [flatten_map_chunkList, flatten_map_chunkList]

/-- Witness for C4 on a concrete 1×2 reference array, `I = [1]`,
`chunksize = 1`. -/
theorem jaccarddist_matrix_refIndices_chunksize_witness :
    (∀ j ∈ [1], j < (SignatureArray.mk [5, 7, 7] [0, 2, 3]).count) ∧
    (jaccarddist_matrix [[5]] (SignatureArray.mk [5, 7, 7] [0, 2, 3])
        (some [1]) (some 1) =
      selectCols (jaccarddist_matrix [[5]]
        (SignatureArray.mk [5, 7, 7] [0, 2, 3]) none none) [1] ∧
      jaccarddist_matrix [[5]] (SignatureArray.mk [5, 7, 7] [0, 2, 3])
          none (some 1) =
        jaccarddist_matrix [[5]] (SignatureArray.mk [5, 7, 7] [0, 2, 3])
          none none) :=
  ⟨by decide,
    jaccarddist_matrix_refIndices_chunksize [[5]]
      (SignatureArray.mk [5, 7, 7] [0, 2, 3]) [1] (some 1) (some 1) (by decide)⟩

/-- A caller-supplied numpy-style output buffer: a shape, an element dtype
tag, and the flat element data. -/
structure OutBuf where
  shape : List ℕ
  dtype : String
  data : List ℚ

/-- Modelled from the spec: the canonical score dtype of the metric module
(`gambit.metric.SCORE_DTYPE`, 32-bit float). -/
def SCORE_DTYPE : String := "float32"

/-- Modelled from the spec: `jaccarddist_array` with a caller-supplied
output buffer — the buffer must have exact shape `(len(refs),)` and the
canonical score dtype; any mismatch fails validation before any write.
Returns the error (if any) together with the final state of the
destination buffer. -/
def jaccarddist_array_out (q : List ℕ) (refs : SignatureArray)
    (out : OutBuf) : Option String × OutBuf :=
  if out.shape = [refs.count] ∧ out.dtype = SCORE_DTYPE then
    (none, { out with data := jaccarddist_array q refs })
  else
    (some "ValidationError", out)

/-- Modelled from the spec: `jaccarddist_matrix` with a caller-supplied
output buffer — the buffer is fully shape/dtype validated before any
write.  Returns the error (if any) together with the final state of the
destination buffer. -/
def jaccarddist_matrix_out (queries : List (List ℕ)) (refs : SignatureArray)
    (out : OutBuf) : Option String × OutBuf :=
  if out.shape = [queries.length, refs.count] ∧ out.dtype = SCORE_DTYPE then
    (none, { out with data := (jaccarddist_matrix queries refs none none).flatten })
  else
    (some "ValidationError", out)

/-- C6: for every metric call given a caller-supplied output buffer whose
shape is not exactly `(len(refs),)` (respectively the matrix shape) or
whose dtype is not the canonical score dtype, the call fails with a
validation error raised before any write, and the destination buffer is
left unmutated. -/
theorem out_buffer_validation (q : List ℕ) (queries : List (List ℕ))
    (refs : SignatureArray) (out1 out2 : OutBuf)
    (h1 : out1.shape ≠ [refs.count] ∨ out1.dtype ≠ SCORE_DTYPE)
    (h2 : out2.shape ≠ [queries.length, refs.count] ∨ out2.dtype ≠ SCORE_DTYPE) :
    jaccarddist_array_out q refs out1 = (some "ValidationError", out1) ∧
    jaccarddist_matrix_out queries refs out2 = (some "ValidationError", out2) := by
  constructor
  · unfold jaccarddist_array_out
    rw [if_neg]
    rintro ⟨hs, hd⟩
    rcases h1 with h | h <;> exact h (by assumption)
  · unfold jaccarddist_matrix_out
    rw [if_neg]
    rintro ⟨hs, hd⟩
    rcases h2 with h | h <;> exact h (by assumption)

/-- Witness for C6 on concrete wrong-shape and wrong-dtype buffers. -/
theorem out_buffer_validation_witness :
    ((OutBuf.mk [3] "float32" [0, 0, 0]).shape ≠
        [(SignatureArray.mk [5, 7, 7] [0, 2, 3]).count] ∨
      (OutBuf.mk [3] "float32" [0, 0, 0]).dtype ≠ SCORE_DTYPE) ∧
    ((OutBuf.mk [1, 2] "int64" [0, 0]).shape ≠
        [1, (SignatureArray.mk [5, 7, 7] [0, 2, 3]).count] ∨
      (OutBuf.mk [1, 2] "int64" [0, 0]).dtype ≠ SCORE_DTYPE) ∧
    (jaccarddist_array_out [5] (SignatureArray.mk [5, 7, 7] [0, 2, 3])
        (OutBuf.mk [3] "float32" [0, 0, 0]) =
      (some "ValidationError", OutBuf.mk [3] "float32" [0, 0, 0]) ∧
      jaccarddist_matrix_out [[5]] (SignatureArray.mk [5, 7, 7] [0, 2, 3])
          (OutBuf.mk [1, 2] "int64" [0, 0]) =
        (some "ValidationError", OutBuf.mk [1, 2] "int64" [0, 0])) :=
  ⟨by decide, by decide,
    out_buffer_validation [5] [[5]] (SignatureArray.mk [5, 7, 7] [0, 2, 3])
      (OutBuf.mk [3] "float32" [0, 0, 0]) (OutBuf.mk [1, 2] "int64" [0, 0])
      (by decide) (by decide)⟩

/-- A nucleotide base over the alphabet A, C, G, T. -/
inductive Base
  | A | C | G | T
deriving DecidableEq

/-- Positional base-4 code of a base. -/
def Base.code : Base → ℕ
  | .A => 0
  | .C => 1
  | .G => 2
  | .T => 3

/-- Watson-Crick complement of a base. -/
def Base.compl : Base → Base
  | .A => .T
  | .C => .G
  | .G => .C
  | .T => .A

/-- A raw sequence character: an upper- or lower-case nucleotide letter, or
any other character (ambiguity code etc.). -/
inductive SChar
  | Au | Al | Cu | Cl | Gu | Gl | Tu | Tl | other
deriving DecidableEq

/-- Lower-casing of a raw sequence character. -/
def SChar.lower : SChar → SChar
  | .Au => .Al
  | .Al => .Al
  | .Cu => .Cl
  | .Cl => .Cl
  | .Gu => .Gl
  | .Gl => .Gl
  | .Tu => .Tl
  | .Tl => .Tl
  | .other => .other

/-- Complement table on raw characters, case-preserving; non-ACGT
characters are unchanged. -/
def SChar.comp : SChar → SChar
  | .Au => .Tu
  | .Al => .Tl
  | .Tu => .Au
  | .Tl => .Al
  | .Cu => .Gu
  | .Cl => .Gl
  | .Gu => .Cu
  | .Gl => .Cl
  | .other => .other

/-- Modelled from the spec: reverse complement of a whole raw sequence
(`gambit.kmers.revcomp`, absent from the sampled sources). -/
def revcomp (s : List SChar) : List SChar := (s.map SChar.comp).reverse

/-- Case-insensitive classification of a raw character as a valid
nucleotide base; non-ACGT characters classify to `none`. -/
def SChar.classify : SChar → Option Base
  | .Au => some .A
  | .Al => some .A
  | .Cu => some .C
  | .Cl => some .C
  | .Gu => some .G
  | .Gl => some .G
  | .Tu => some .T
  | .Tl => some .T
  | .other => none

/-- Modelled from the spec: immutable k-mer extraction parameters — the
k-mer length `k` and the literal nucleotide sequence `pref` marking k-mer
starts (`gambit.sigs.KmerSpec`, absent from the sampled sources). -/
structure KmerSpec where
  k : ℕ
  pref : List Base

/-- Complement of a classified character. -/
def compO (o : Option Base) : Option Base := o.map Base.compl

/-- Reverse complement of a classified window. -/
def rcw (w : List (Option Base)) : List (Option Base) := (w.map compO).reverse

/-- Reverse complement of a whole classified sequence. -/
def rcC (cs : List (Option Base)) : List (Option Base) := (cs.map compO).reverse

/-- The window of `len` classified characters starting at position `p`. -/
def window (cs : List (Option Base)) (p len : ℕ) : List (Option Base) :=
  (cs.drop p).take len

/-- A window decodes only when every character is a valid nucleotide. -/
def seqOpt : List (Option Base) → Option (List Base)
  | [] => some []
  | none :: _ => none
  | some b :: l => (seqOpt l).map (fun bs => b :: bs)

/-- Positional base-4 decoding of a k-mer to its integer index. -/
def decodeKmer (bs : List Base) : ℕ :=
  bs.foldl (fun acc b => acc * 4 + b.code) 0

/-- Modelled from the spec: forward match attempt at position `p` — the
literal prefix occurring at `p` immediately followed by `k` valid
nucleotide characters; decode those `k` characters into an index.
Matches needing characters outside the sequence bounds are excluded. -/
def fwdAt (ks : KmerSpec) (cs : List (Option Base)) (p : ℕ) : Option ℕ :=
  if p + ks.pref.length + ks.k ≤ cs.length ∧
      window cs p ks.pref.length = ks.pref.map some then
    (seqOpt (window cs (p + ks.pref.length) ks.k)).map decodeKmer
  else none

/-- Modelled from the spec: backward match attempt at position `q` — the
reverse complement of the prefix occurring at `q`; take the `k` characters
immediately preceding it, reverse-complement them and decode. -/
def bwdAt (ks : KmerSpec) (cs : List (Option Base)) (q : ℕ) : Option ℕ :=
  if ks.k ≤ q ∧ q + ks.pref.length ≤ cs.length ∧
      window cs q ks.pref.length = rcw (ks.pref.map some) then
    (seqOpt (rcw (window cs (q - ks.k) ks.k))).map decodeKmer
  else none

/-- The set of k-mer indices extracted from a classified sequence: forward
matches and backward matches, duplicates collapsing by set semantics. -/
def sigSet (ks : KmerSpec) (cs : List (Option Base)) : Finset ℕ :=
  ((List.range (cs.length + 1)).filterMap (fwdAt ks cs)).toFinset ∪
  ((List.range (cs.length + 1)).filterMap (bwdAt ks cs)).toFinset

/-- Modelled from the spec: `calc_signature` — extract the sparse k-mer
signature of a raw sequence as the sorted-unique list of indices of all
forward and backward prefix matches (`gambit.search.calc_signature`,
absent from the sampled sources). -/
def calc_signature (ks : KmerSpec) (s : List SChar) : List ℕ :=
  (sigSet ks (s.map SChar.classify)).sort (· ≤ ·)

theorem compO_compO (o : Option Base) : compO (compO o) = o := by
  cases o with
  | none => rfl
  | some b => cases b <;> rfl

theorem rcw_rcw (w : List (Option Base)) : rcw (rcw w) = w := by
  simp only [rcw, List.map_reverse, List.reverse_reverse, List.map_map]
  exact (List.map_congr_left fun o _ => compO_compO o).trans (List.map_id w)

theorem rcC_rcC (cs : List (Option Base)) : rcC (rcC cs) = cs := by
  simp only [rcC, List.map_reverse, List.reverse_reverse, List.map_map]
  exact (List.map_congr_left fun o _ => compO_compO o).trans (List.map_id cs)

theorem length_rcC (cs : List (Option Base)) : (rcC cs).length = cs.length := by
  simp [rcC]

theorem length_window (cs : List (Option Base)) (p len : ℕ)
    (h : p + len ≤ cs.length) : (window cs p len).length = len := by
  simp [window]
  omega

theorem window_rcC (cs : List (Option Base)) (p len : ℕ)
    (h : p + len ≤ cs.length) :
    window (rcC cs) p len = rcw (window cs (cs.length - p - len) len) := by
  have hwl : (window cs (cs.length - p - len) len).length = len :=
    length_window cs _ len (by omega)
  apply List.ext_getElem?
  intro i
  by_cases hi : i < len
  · have hL : (window (rcC cs) p len)[i]? =
        Option.map compO cs[cs.length - 1 - (p + i)]? := by
      simp only [window, rcC]
      rw [List.getElem?_take_of_lt hi, List.getElem?_drop,
        List.getElem?_reverse (by simp only [List.length_map]; omega),
        List.getElem?_map]
      simp only [List.length_map]
    have hR : (rcw (window cs (cs.length - p - len) len))[i]? =
        Option.map compO cs[(cs.length - p - len) + (len - 1 - i)]? := by
      simp only [rcw]
      rw [List.getElem?_reverse (by simp only [List.length_map, hwl]; omega),
        List.getElem?_map]
      simp only [List.length_map, hwl]
      simp only [window]
      rw [List.getElem?_take_of_lt (by omega), List.getElem?_drop]
    rw [hL, hR]
    have hab : cs.length - 1 - (p + i) = (cs.length - p - len) + (len - 1 - i) := by
      omega
    rw [hab]
  · have h1 : (window (rcC cs) p len).length ≤ i := by
      rw [length_window (rcC cs) p len (by rw [length_rcC]; omega)]
      omega
    have h2 : (rcw (window cs (cs.length - p - len) len)).length ≤ i := by
      simp only [rcw, List.length_reverse, List.length_map, hwl]
      omega
    rw [List.getElem?_eq_none h1, List.getElem?_eq_none h2]

theorem fwdAt_rcC (ks : KmerSpec) (cs : List (Option Base)) (p x : ℕ)
    (h : fwdAt ks (rcC cs) p = some x) :
    bwdAt ks cs (cs.length - p - ks.pref.length) = some x := by
  unfold fwdAt at h
  split at h
  · rename_i hcond
    obtain ⟨hb, hw⟩ := hcond
    rw [length_rcC] at hb
    rw [window_rcC cs p ks.pref.length (by omega)] at hw
    have hw2 : window cs (cs.length - p - ks.pref.length) ks.pref.length =
        rcw (ks.pref.map some) := by
      rw [← hw, rcw_rcw]
    rw [window_rcC cs (p + ks.pref.length) ks.k (by omega)] at h
    unfold bwdAt
    rw [if_pos ⟨by omega, by omega, hw2⟩]
    have hidx : cs.length - p - ks.pref.length - ks.k =
        cs.length - (p + ks.pref.length) - ks.k := by omega
    rw [hidx]
    exact h
  · exact absurd h (by simp)

theorem bwdAt_rcC (ks : KmerSpec) (cs : List (Option Base)) (q x : ℕ)
    (h : bwdAt ks cs q = some x) :
    fwdAt ks (rcC cs) (cs.length - q - ks.pref.length) = some x := by
  unfold bwdAt at h
  split at h
  · rename_i hcond
    obtain ⟨hk, hq, hw⟩ := hcond
    unfold fwdAt
    have hb : cs.length - q - ks.pref.length + ks.pref.length + ks.k ≤
        (rcC cs).length := by
      rw [length_rcC]
      omega
    have hwin : window (rcC cs) (cs.length - q - ks.pref.length)
        ks.pref.length = ks.pref.map some := by
      rw [window_rcC cs (cs.length - q - ks.pref.length) ks.pref.length (by omega)]
      have hq' : cs.length - (cs.length - q - ks.pref.length) - ks.pref.length = q := by
        omega
      rw [hq', hw, rcw_rcw]
    rw [if_pos ⟨hb, hwin⟩]
    rw [window_rcC cs (cs.length - q - ks.pref.length + ks.pref.length) ks.k (by omega)]
    have hidx : cs.length - (cs.length - q - ks.pref.length + ks.pref.length) -
        ks.k = q - ks.k := by omega
    rw [hidx]
    exact h
  · exact absurd h (by simp)

theorem sigSet_rcC (ks : KmerSpec) (cs : List (Option Base)) :
    sigSet ks (rcC cs) = sigSet ks cs := by
  ext x
  simp only [sigSet, Finset.mem_union, List.mem_toFinset, List.mem_filterMap,
    List.mem_range, length_rcC]
  constructor
  · rintro (⟨p, hp, hfp⟩ | ⟨q, hq, hbq⟩)
    · exact Or.inr ⟨cs.length - p - ks.pref.length, by omega,
        fwdAt_rcC ks cs p x hfp⟩
    · refine Or.inl ⟨cs.length - q - ks.pref.length, by omega, ?_⟩
      have h2 := bwdAt_rcC ks (rcC cs) q x hbq
      rw [rcC_rcC, length_rcC] at h2
      exact h2
  · rintro (⟨p, hp, hfp⟩ | ⟨q, hq, hbq⟩)
    · refine Or.inr ⟨cs.length - p - ks.pref.length, by omega, ?_⟩
      have h2 : fwdAt ks (rcC (rcC cs)) p = some x := by
        rw [rcC_rcC]
        exact hfp
      have h3 := fwdAt_rcC ks (rcC cs) p x h2
      rw [length_rcC] at h3
      exact h3
    · exact Or.inl ⟨cs.length - q - ks.pref.length, by omega,
        bwdAt_rcC ks cs q x hbq⟩

theorem classify_lower (c : SChar) :
    (SChar.lower c).classify = c.classify := by
  cases c <;> rfl

theorem classify_comp (c : SChar) :
    (SChar.comp c).classify = compO c.classify := by
  cases c <;> rfl

/-- C7: for every `KmerSpec` and every nucleotide sequence, signature
extraction is invariant under changing the case of the input and under
reverse-complementing the whole input:
`calc_signature ks (lowercase s) = calc_signature ks s` and
`calc_signature ks (revcomp s) = calc_signature ks s`. -/
theorem calc_signature_case_and_revcomp_invariant (ks : KmerSpec)
    (s : List SChar) :
    calc_signature ks (s.map SChar.lower) = calc_signature ks s ∧
    calc_signature ks (revcomp s) = calc_signature ks s := by
  constructor
  · unfold calc_signature
    have hmap : (s.map SChar.lower).map SChar.classify = s.map SChar.classify := by
      rw [List.map_map]
      exact List.map_congr_left fun c _ => classify_lower c
    rw [hmap]
  · unfold calc_signature
    have hmap : (revcomp s).map SChar.classify = rcC (s.map SChar.classify) := by
      simp only [revcomp, rcC, List.map_reverse, List.map_map]
      congr 1
      exact List.map_congr_left fun c _ => classify_comp c
    rw [hmap, sigSet_rcC]

/-- Modelled from the spec: the supported concurrency modes for batch
signature extraction. -/
inductive Concurrency
  | sequential
  | threads
  | processes
deriving DecidableEq

/-- Modelled from the spec: the possible completion orders of the per-file
work units under a concurrency mode — sequential execution completes units
in input order; thread- and process-pool execution may complete the
independent units in any order. -/
def validOrder (mode : Concurrency) (n : ℕ) (ord : List ℕ) : Prop :=
  match mode with
  | .sequential => ord = List.range n
  | .threads => ord.Perm (List.range n)
  | .processes => ord.Perm (List.range n)

/-- Modelled from the spec: the batch driver — a result buffer with one
preallocated slot per input file; work units complete in completion order,
each writing its result into its own input slot and reporting the new
completed-count to the progress callback. -/
def runBatch (f : ℕ → σ) (n : ℕ) (ord : List ℕ) :
    List (Option σ) × List ℕ :=
  (ord.foldl (fun b i => b.set i (some (f i))) (List.replicate n none),
   ord.foldl (fun lg _ => lg ++ [lg.length + 1]) [])

/-- Modelled from the spec: `calc_file_signatures` — batch signature
extraction over many sequence files with ordered results
(`gambit.search.calc_file_signatures`, absent from the sampled sources);
returns the filled result buffer and the progress-count log. -/
def calc_file_signatures (ks : KmerSpec) (files : List (List SChar))
    (ord : List ℕ) : List (Option (List ℕ)) × List ℕ :=
  runBatch (fun i => calc_signature ks (files.getD i [])) files.length ord

theorem foldl_set_getElem (f : ℕ → σ) :
    ∀ (ord : List ℕ) (buf : List (Option σ)) (j : ℕ), ord.Nodup →
    (ord.foldl (fun b i => b.set i (some (f i))) buf)[j]? =
      if j ∈ ord ∧ j < buf.length then some (some (f j)) else buf[j]?
  | [], buf, j, _ => by simp
  | i :: rest, buf, j, hnd => by
    simp only [List.foldl_cons]
    rw [foldl_set_getElem f rest (buf.set i (some (f i))) j
      (List.nodup_cons.mp hnd).2]
    by_cases hji : j = i
    · subst hji
      have hjr : j ∉ rest := (List.nodup_cons.mp hnd).1
      rw [if_neg (by simp [hjr]), List.getElem?_set]
      simp only [if_pos rfl]
      by_cases hjl : j < buf.length
      · simp [hjl]
      · have hcond : ¬(j ∈ j :: rest ∧ j < buf.length) := fun hc => hjl hc.2
        rw [if_neg hjl, if_neg hcond, List.getElem?_eq_none (by omega)]
        simp
    · rw [List.getElem?_set_ne (fun hh => hji hh.symm)]
      simp only [List.length_set]
      by_cases hjr : j ∈ rest <;> by_cases hjl : j < buf.length <;>
        simp [hjr, hjl, hji]

theorem runBatch_buffer (f : ℕ → σ) (n : ℕ) (ord : List ℕ)
    (h : ord.Perm (List.range n)) :
    (runBatch f n ord).1 = (List.range n).map (fun i => some (f i)) := by
  have hnd : ord.Nodup := h.nodup_iff.mpr (List.nodup_range n)
  apply List.ext_getElem?
  intro j
  simp only [runBatch]
  rw [foldl_set_getElem f ord (List.replicate n none) j hnd]
  by_cases hj : j < n
  · rw [if_pos ⟨h.mem_iff.mpr (List.mem_range.mpr hj), by simpa using hj⟩,
      List.getElem?_map, List.getElem?_range hj]
    rfl
  · rw [if_neg (by simp; omega), List.getElem?_eq_none (by simpa using by omega),
      List.getElem?_eq_none (by simp; omega)]

theorem progressLog_eq (ord : List ℕ) :
    ord.foldl (fun lg _ => lg ++ [lg.length + 1]) [] =
      List.range' 1 ord.length := by
  have gen : ∀ (l : List ℕ) (lg : List ℕ),
      l.foldl (fun a _ => a ++ [a.length + 1]) lg =
        lg ++ List.range' (lg.length + 1) l.length := by
    intro l
    induction l with
    | nil => intro lg; simp
    | cons a t ih =>
      intro lg
      simp only [List.foldl_cons]
      rw [ih (lg ++ [lg.length + 1])]
      simp [List.range'_succ, List.append_assoc]
  simpa using gen ord []

theorem sorted_range' (s n : ℕ) : List.Sorted (· < ·) (List.range' s n) := by
  induction n generalizing s with
  | zero => simp
  | succ m ih =>
    rw [List.range'_succ, List.sorted_cons]
    refine ⟨fun b hb => ?_, ih (s + 1)⟩
    rw [List.mem_range'] at hb
    obtain ⟨i, hi, rfl⟩ := hb
    omega

theorem count_range'_last (n : ℕ) (hn : 0 < n) :
    (List.range' 1 n).count n = 1 := by
  refine List.count_eq_one_of_mem (sorted_range' 1 n).nodup ?_
  rw [List.mem_range']
  exact ⟨n - 1, by omega, by omega⟩

theorem map_range_getD (g : List SChar → List ℕ) (files : List (List SChar)) :
    (List.range files.length).map (fun i => some (g (files.getD i []))) =
      files.map (fun fl => some (g fl)) := by
  apply List.ext_getElem?
  intro j
  by_cases hj : j < files.length
  · rw [List.getElem?_map, List.getElem?_range hj, List.getElem?_map,
      List.getElem?_eq_getElem hj]
    simp [List.getD_eq_getElem?_getD, List.getElem?_eq_getElem hj]
  · rw [List.getElem?_map, List.getElem?_map,
      List.getElem?_eq_none (by simp; omega),
      List.getElem?_eq_none (by omega)]
    rfl

/-- C8: for every list of N sequence files and every supported concurrency
mode (sequential, thread pool, process pool — i.e. every completion order
the mode permits), batch extraction fills the per-file result slots in the
exact input file order, each equal to direct per-file extraction, and the
progress callback receives the strictly increasing completed-counts
1, 2, ..., N, so the count reaches N exactly once (for a nonempty batch). -/
theorem calc_file_signatures_ordered (ks : KmerSpec)
    (files : List (List SChar)) (mode : Concurrency) (ord : List ℕ)
    (h : validOrder mode files.length ord) :
    (calc_file_signatures ks files ord).1 =
      files.map (fun fl => some (calc_signature ks fl)) ∧
    (calc_file_signatures ks files ord).2 = List.range' 1 files.length ∧
    List.Sorted (· < ·) (calc_file_signatures ks files ord).2 ∧
    (files ≠ [] →
      (calc_file_signatures ks files ord).2.count files.length = 1) := by
  have hperm : ord.Perm (List.range files.length) := by
    cases mode with
    | sequential =>
      have h2 : ord = List.range files.length := h
      rw [h2]
    | threads => exact h
    | processes => exact h
  have hlen : ord.length = files.length := by
    simpa using hperm.length_eq
  have hlog : (calc_file_signatures ks files ord).2 =
      List.range' 1 files.length := by
    simp only [calc_file_signatures, runBatch]
    rw [progressLog_eq, hlen]
  refine ⟨?_, hlog, ?_, fun hne => ?_⟩
  · rw [calc_file_signatures, runBatch_buffer _ _ _ hperm, map_range_getD]
  · rw [hlog]
    exact sorted_range' 1 files.length
  · rw [hlog]
    exact count_range'_last files.length (List.length_pos.mpr hne)

/-- Witness for C8: two one-character files under thread-pool concurrency
completing in reversed order. -/
theorem calc_file_signatures_ordered_witness :
    validOrder Concurrency.threads [[SChar.Au], [SChar.Cu]].length [1, 0] ∧
    ((calc_file_signatures (KmerSpec.mk 1 [Base.A]) [[SChar.Au], [SChar.Cu]]
        [1, 0]).1 =
      [[SChar.Au], [SChar.Cu]].map
        (fun fl => some (calc_signature (KmerSpec.mk 1 [Base.A]) fl)) ∧
      (calc_file_signatures (KmerSpec.mk 1 [Base.A]) [[SChar.Au], [SChar.Cu]]
          [1, 0]).2 = List.range' 1 [[SChar.Au], [SChar.Cu]].length ∧
      List.Sorted (· < ·)
        (calc_file_signatures (KmerSpec.mk 1 [Base.A]) [[SChar.Au], [SChar.Cu]]
          [1, 0]).2 ∧
      ([[SChar.Au], [SChar.Cu]] ≠ ([] : List (List SChar)) →
        (calc_file_signatures (KmerSpec.mk 1 [Base.A]) [[SChar.Au], [SChar.Cu]]
          [1, 0]).2.count [[SChar.Au], [SChar.Cu]].length = 1)) :=
  ⟨List.isPerm_iff.mp (by decide),
    calc_file_signatures_ordered (KmerSpec.mk 1 [Base.A])
      [[SChar.Au], [SChar.Cu]] Concurrency.threads [1, 0]
      (List.isPerm_iff.mp (by decide))⟩

/-- Modelled from the spec: a match — reference index, distance score and
associated taxon (taxa are identified by numeric keys). -/
structure TaxMatch where
  refIndex : ℕ
  distance : ℚ
  taxon : ℕ
deriving DecidableEq

/-- Modelled from the spec: the taxonomy data the classifier consults —
per-reference taxon assignment, per-taxon reporting threshold, per-taxon
reportability flag and ancestor (parent) lookup. -/
structure TaxonomyDB where
  refTaxa : List ℕ
  threshold : ℕ → ℚ
  reportable : ℕ → Bool
  parent : ℕ → Option ℕ

/-- Modelled from the spec: one query's classification result; created once
per query and never mutated. -/
structure ClassifierResult where
  success : Bool
  predicted_taxon : Option ℕ
  primary_match : Option TaxMatch
  closest_match : Option TaxMatch
  warnings : List String
  error : Option String
deriving DecidableEq

/-- Modelled from the spec: single left-to-right scan over the distance
vector retaining the first minimum found (ties broken by first occurrence
in reference order). -/
def findClosestAux : ℕ → Option (ℕ × ℚ) → List ℚ → Option (ℕ × ℚ)
  | _, best, [] => best
  | i, none, d :: ds => findClosestAux (i + 1) (some (i, d)) ds
  | i, some (j, b), d :: ds =>
    if d < b then findClosestAux (i + 1) (some (i, d)) ds
    else findClosestAux (i + 1) (some (j, b)) ds

/-- The reference with globally minimal distance, first occurrence first. -/
def findClosest (ds : List ℚ) : Option (ℕ × ℚ) := findClosestAux 0 none ds

/-- Modelled from the spec: walk `predicted_taxon` up the ancestor chain to
the nearest taxon marked reportable (`fuel` bounds the chain depth). -/
def reportTaxonOf (db : TaxonomyDB) : ℕ → ℕ → Option ℕ
  | fuel, t =>
    if db.reportable t then some t
    else
      match fuel, db.parent t with
      | 0, _ => none
      | _, none => none
      | f + 1, some p => reportTaxonOf db f p

/-- Modelled from the spec: turn a query's distance profile into a
classification (`gambit.classify`, absent from the sampled sources):
`closest_match` is the first global minimum; `primary_match` equals
`closest_match` when the closest distance satisfies the matched taxon's
reporting threshold (strict mode additionally requires the absence of a
qualifying tie); `predicted_taxon` is the taxon of `primary_match`;
classification-logic outcomes are always `success = true`. -/
def classify (db : TaxonomyDB) (strict : Bool) (ds : List ℚ) :
    ClassifierResult :=
  match findClosest ds with
  | none => ⟨true, none, none, none, [], none⟩
  | some (i0, d0) =>
    let t0 := db.refTaxa.getD i0 0
    let cm : TaxMatch := ⟨i0, d0, t0⟩
    let tie := decide (2 ≤ ds.count d0)
    let qualifies := decide (d0 ≤ db.threshold t0) && (!strict || !tie)
    { success := true
      predicted_taxon := if qualifies then some t0 else none
      primary_match := if qualifies then some cm else none
      closest_match := some cm
      warnings := if tie then ["tied near-minimal matches"] else []
      error := none }

/-- Modelled from the spec: the per-query pipeline — signature computation
may fail (malformed/unreadable input), which is the only way to get
`success = false` with `error` set; otherwise the distances to all
references are computed and classified. -/
def runQuery (db : TaxonomyDB) (refs : SignatureArray) (strict : Bool)
    (sigResult : Except String (List ℕ)) : ClassifierResult :=
  match sigResult with
  | .error e => ⟨false, none, none, none, [], some e⟩
  | .ok sig => classify db strict (jaccarddist_array sig refs)

/-- The reported taxon of a result: the nearest reportable ancestor of the
predicted taxon, `none` when there is no prediction. -/
def report_taxon (db : TaxonomyDB) (fuel : ℕ) (r : ClassifierResult) :
    Option ℕ :=
  match r.predicted_taxon with
  | none => none
  | some t => reportTaxonOf db fuel t

/-- The closest match of a distance profile is not tied (its minimal
distance occurs exactly once). -/
def closestTieFree (ds : List ℚ) : Bool :=
  match findClosest ds with
  | none => true
  | some (_, d0) => decide (ds.count d0 = 1)

/-- The closest match carries taxon `e`, satisfies the reporting threshold
of `e`, and `e` is itself reportable. -/
def closestQualifiesAs (db : TaxonomyDB) (ds : List ℚ) (e : ℕ) : Bool :=
  match findClosest ds with
  | none => false
  | some (i0, d0) =>
    decide (db.refTaxa.getD i0 0 = e) && decide (d0 ≤ db.threshold e) &&
      db.reportable e

/-- No reference qualifies: the closest match misses its taxon's reporting
threshold. -/
def noRefQualifies (db : TaxonomyDB) (ds : List ℚ) : Bool :=
  match findClosest ds with
  | none => true
  | some (i0, d0) => decide (¬d0 ≤ db.threshold (db.refTaxa.getD i0 0))

/-- C2: for every query of the full-database scenario pipeline — signature
computation succeeds, the distance profile is tie-free, and the query's
expected-taxon datum agrees with the reference data as in the scenario —
classification succeeds (`success = true`, `error = none`) with no
warnings; with a non-empty expected taxon the predicted taxon equals it,
`primary_match` equals `closest_match` and the reported taxon equals the
predicted taxon; with an empty expected key `predicted_taxon` and
`primary_match` are both absent while `success` is still true; only
signature-computation failure yields `success = false` with `error` set. -/
theorem query_pipeline_scenario (db : TaxonomyDB) (refs : SignatureArray)
    (strict : Bool) (fuel : ℕ) (sig : List ℕ) (expected : Option ℕ)
    (htie : closestTieFree (jaccarddist_array sig refs) = true)
    (hexp : (match expected with
      | some e => closestQualifiesAs db (jaccarddist_array sig refs) e
      | none => noRefQualifies db (jaccarddist_array sig refs)) = true) :
    (runQuery db refs strict (Except.ok sig)).success = true ∧
    (runQuery db refs strict (Except.ok sig)).error = none ∧
    (runQuery db refs strict (Except.ok sig)).warnings = [] ∧
    (match expected with
      | some e =>
        (runQuery db refs strict (Except.ok sig)).predicted_taxon = some e ∧
        (runQuery db refs strict (Except.ok sig)).primary_match =
          (runQuery db refs strict (Except.ok sig)).closest_match ∧
        report_taxon db fuel (runQuery db refs strict (Except.ok sig)) =
          some e
      | none =>
        (runQuery db refs strict (Except.ok sig)).predicted_taxon = none ∧
        (runQuery db refs strict (Except.ok sig)).primary_match = none) ∧
    ∀ msg : String,
      (runQuery db refs strict (Except.error msg)).success = false ∧
      (runQuery db refs strict (Except.error msg)).error = some msg := by
  have hrun : runQuery db refs strict (Except.ok sig) =
      classify db strict (jaccarddist_array sig refs) := rfl
  cases hfc : findClosest (jaccarddist_array sig refs) with
  | none =>
    have hcl : classify db strict (jaccarddist_array sig refs) =
        ⟨true, none, none, none, [], none⟩ := by
      unfold classify
      rw [hfc]
    cases expected with
    | some e =>
      exfalso
      unfold closestQualifiesAs at hexp
      rw [hfc] at hexp
      exact Bool.false_ne_true hexp
    | none =>
      rw [hrun, hcl]
      exact ⟨rfl, rfl, rfl, ⟨rfl, rfl⟩, fun msg => ⟨rfl, rfl⟩⟩
  | some p =>
    obtain ⟨i0, d0⟩ := p
    unfold closestTieFree at htie
    rw [hfc] at htie
    have hcount : (jaccarddist_array sig refs).count d0 = 1 :=
      of_decide_eq_true htie
    have htieF : decide (2 ≤ (jaccarddist_array sig refs).count d0) = false := by
      rw [decide_eq_false_iff_not]
      omega
    cases expected with
    | some e =>
      unfold closestQualifiesAs at hexp
      rw [hfc] at hexp
      simp only [Bool.and_eq_true, decide_eq_true_eq] at hexp
      obtain ⟨⟨ht0, hthr⟩, hrep⟩ := hexp
      have hq : decide (d0 ≤ db.threshold e) = true := decide_eq_true hthr
      have hcl : classify db strict (jaccarddist_array sig refs) =
          ⟨true, some e, some ⟨i0, d0, e⟩, some ⟨i0, d0, e⟩, [], none⟩ := by
        unfold classify
        rw [hfc]
        simp only [htieF, ht0, hq, Bool.not_false, Bool.or_true, Bool.and_true,
          Bool.true_and, if_true, Bool.false_eq_true, if_false]
      rw [hrun, hcl]
      refine ⟨rfl, rfl, rfl, ⟨rfl, rfl, ?_⟩, fun msg => ⟨rfl, rfl⟩⟩
      unfold report_taxon reportTaxonOf
      simp [hrep]
    | none =>
      unfold noRefQualifies at hexp
      rw [hfc] at hexp
      simp only [decide_eq_true_eq] at hexp
      have hq : decide (d0 ≤ db.threshold (db.refTaxa.getD i0 0)) = false :=
        decide_eq_false hexp
      have hcl : classify db strict (jaccarddist_array sig refs) =
          ⟨true, none, none, some ⟨i0, d0, db.refTaxa.getD i0 0⟩, [], none⟩ := by
        unfold classify
        rw [hfc]
        simp only [htieF, hq, Bool.not_false, Bool.or_true, Bool.and_true,
          Bool.false_and, Bool.false_eq_true, if_false]
      rw [hrun, hcl]
      exact ⟨rfl, rfl, rfl, ⟨rfl, rfl⟩, fun msg => ⟨rfl, rfl⟩⟩

/-- Witness for C2: one reference signature identical to the query (distance
0), taxon 7, threshold 1, reportable. -/
theorem query_pipeline_scenario_witness :
    (closestTieFree (jaccarddist_array [3, 9]
        (SignatureArray.mk [3, 9] [0, 2])) = true ∧
      (match (some 7 : Option ℕ) with
        | some e => closestQualifiesAs
            (TaxonomyDB.mk [7] (fun _ => 1) (fun _ => true) (fun _ => none))
            (jaccarddist_array [3, 9] (SignatureArray.mk [3, 9] [0, 2])) e
        | none => noRefQualifies
            (TaxonomyDB.mk [7] (fun _ => 1) (fun _ => true) (fun _ => none))
            (jaccarddist_array [3, 9] (SignatureArray.mk [3, 9] [0, 2]))) = true) ∧
    ((runQuery (TaxonomyDB.mk [7] (fun _ => 1) (fun _ => true) (fun _ => none))
        (SignatureArray.mk [3, 9] [0, 2]) false (Except.ok [3, 9])).success = true ∧
      (runQuery (TaxonomyDB.mk [7] (fun _ => 1) (fun _ => true) (fun _ => none))
        (SignatureArray.mk [3, 9] [0, 2]) false (Except.ok [3, 9])).predicted_taxon =
          some 7) := by
  have harr : jaccarddist_array [3, 9] (SignatureArray.mk [3, 9] [0, 2]) =
      [jaccarddist [3, 9] [3, 9]] := rfl
  have hdist : jaccarddist [3, 9] [3, 9] = 0 := by
    unfold jaccarddist jaccard
    rw [show intersectCount [3, 9] [3, 9] = 2 by simp [intersectCount]]
    norm_num
  have htie : closestTieFree (jaccarddist_array [3, 9]
      (SignatureArray.mk [3, 9] [0, 2])) = true := by
    rw [harr, hdist]
    rfl
  have hexp : closestQualifiesAs
      (TaxonomyDB.mk [7] (fun _ => 1) (fun _ => true) (fun _ => none))
      (jaccarddist_array [3, 9] (SignatureArray.mk [3, 9] [0, 2])) 7 = true := by
    rw [harr, hdist]
    rfl
  have hmain := query_pipeline_scenario
    (TaxonomyDB.mk [7] (fun _ => 1) (fun _ => true) (fun _ => none))
    (SignatureArray.mk [3, 9] [0, 2]) false 0 [3, 9] (some 7) htie hexp
  exact ⟨⟨htie, hexp⟩, hmain.1, hmain.2.2.2.1.1⟩

/-- A click boolean flag pair as declared on the `query` command: its
default value and whether it is hidden from help output. -/
structure BoolFlagDecl where
  default : Bool
  hidden : Bool

/-- The `--strict` / `--no-strict` option of `query_cmd`
(src/gambit/cli/query.py lines 51-55): `default=False, hidden=True`. -/
def strict_option : BoolFlagDecl := ⟨false, true⟩

/-- Click semantics of a `--strict` / `--no-strict` flag pair over a raw
argument list: the last occurrence wins and the declared default applies
when neither flag is passed. -/
def parse_strict (args : List String) : Bool :=
  args.foldl
    (fun acc a =>
      if a = "--strict" then true
      else if a = "--no-strict" then false
      else acc)
    strict_option.default

/-- The query-run parameters (gambit.query.QueryParams as used by the CLI;
only the strictness field is relevant here). -/
structure QueryParams where
  classify_strict : Bool
deriving DecidableEq

/-- `query_cmd` builds the parameters for the whole run as
`params = QueryParams(classify_strict=strict)`
(src/gambit/cli/query.py line 76). -/
def query_cmd_params (strict : Bool) : QueryParams := ⟨strict⟩

theorem parse_strict_of_not_mem (args : List String)
    (h : "--strict" ∉ args) : parse_strict args = false := by
  have gen : ∀ (l : List String), "--strict" ∉ l →
      l.foldl
        (fun acc a =>
          if a = "--strict" then true
          else if a = "--no-strict" then false
          else acc) false = false := by
    intro l
    induction l with
    | nil => intro _; rfl
    | cons a t ih =>
      intro hmem
      have ha : a ≠ "--strict" := fun hh => hmem (hh ▸ List.mem_cons_self a t)
      have ht : "--strict" ∉ t := fun hh => hmem (List.mem_cons_of_mem a hh)
      simp only [List.foldl_cons, if_neg ha]
      by_cases hb : a = "--no-strict"
      · rw [if_pos hb]
        exact ih ht
      · rw [if_neg hb]
        exact ih ht
  exact gen args h

/-- C10: the `--strict` / `--no-strict` option of the CLI query entry point
defaults to `False` and is hidden from help output; its parsed value is
passed unchanged as the `classify_strict` field of the `QueryParams` used
for the whole run; in particular every invocation that does not pass
`--strict` runs in non-strict mode. -/
theorem query_cmd_strict_contract (args : List String)
    (h : "--strict" ∉ args) :
    strict_option.default = false ∧ strict_option.hidden = true ∧
    (∀ b : Bool, (query_cmd_params b).classify_strict = b) ∧
    (query_cmd_params (parse_strict args)).classify_strict = false := by
  refine ⟨rfl, rfl, fun b => rfl, ?_⟩
  show parse_strict args = false
  exact parse_strict_of_not_mem args h

/-- Witness for C10 on a concrete argument list without `--strict`. -/
theorem query_cmd_strict_contract_witness :
    "--strict" ∉ ["--no-strict", "-o", "out.csv", "genome.fasta"] ∧
    (strict_option.default = false ∧ strict_option.hidden = true ∧
      (∀ b : Bool, (query_cmd_params b).classify_strict = b) ∧
      (query_cmd_params
        (parse_strict ["--no-strict", "-o", "out.csv", "genome.fasta"])).classify_strict =
          false) :=
  ⟨by decide,
    query_cmd_strict_contract ["--no-strict", "-o", "out.csv", "genome.fasta"]
      (by decide)⟩

end Gambit
